import Mathlib

/-!
Verification of the pix pixel/raster library against its specification.

The development shallowly embeds the code of `src/raster.rs`, `src/pixel.rs`
and `src/hwb.rs`.  Machine integers are modelled as `Int`/`Nat` with explicit
wrap-around (`% 2^32`) where Rust release-mode arithmetic can overflow, and
with `Option` results where the Rust code can panic.  Code of the crate that
the sources do not include (the channel arithmetic of `chan.rs`, the hexcone
helpers of `hue.rs` and the Porter-Duff operators of `ops.rs`) is modelled
from the specification; each such definition is marked in its doc comment.
-/

namespace Pix

/-- Largest value of Rust `i32`. -/
def i32Max : ℤ := 2147483647

/-- Smallest value of Rust `i32`. -/
def i32Min : ℤ := -2147483648

/-- Rust `i32::saturating_add`. -/
def satAdd (a b : ℤ) : ℤ := max (min (a + b) i32Max) i32Min

/-- Rust release semantics of `(d) as u32` applied to an `i32` subtraction
result `d`: the i32 subtraction wraps modulo `2^32` and the cast reinterprets
the bits, so the resulting `u32` is the mathematical difference mod `2^32`. -/
def wrapToU32 (z : ℤ) : ℕ := (z % 4294967296).toNat

/-- `u32 -> i32` via `i32::try_from(w).unwrap_or(0)`, as in `Region::new`. -/
def u32ToI32OrZero (w : ℕ) : ℤ := if (w : ℤ) ≤ i32Max then (w : ℤ) else 0

/-- `Region` from raster.rs: signed origin, extent stored as `i32`. -/
structure Region where
  x : ℤ
  y : ℤ
  width : ℤ
  height : ℤ
deriving DecidableEq

/-- `Region::new` from raster.rs. -/
def Region.new (x y : ℤ) (w h : ℕ) : Region :=
  ⟨x, y, u32ToI32OrZero w, u32ToI32OrZero h⟩

/-- `Region::right` from raster.rs: `x.saturating_add(width)`. -/
def Region.right (r : Region) : ℤ := satAdd r.x r.width

/-- `Region::bottom` from raster.rs: `y.saturating_add(height)`. -/
def Region.bottom (r : Region) : ℤ := satAdd r.y r.height

/-- `Region::intersection` from raster.rs.  The subtractions `x1 - x0` and
`y1 - y0` are Rust `i32` subtractions whose result is cast `as u32`; both are
modelled with wrap-around (release semantics). -/
def Region.intersection (a b : Region) : Region :=
  let x0 := max a.x b.x
  let x1 := min a.right b.right
  let w := wrapToU32 (x1 - x0)
  let y0 := max a.y b.y
  let y1 := min a.bottom b.bottom
  let h := wrapToU32 (y1 - y0)
  Region.new x0 y0 w h

/-- `From<()> for Region` from raster.rs: the full plane
`(0, 0, i32::MAX as u32, i32::MAX as u32)`. -/
def Region.fullPlane : Region := Region.new 0 0 2147483647 2147483647

/-- A point lies inside a region (its mathematical rectangle). -/
def Region.containsPt (r : Region) (px py : ℤ) : Prop :=
  r.x ≤ px ∧ px < r.x + r.width ∧ r.y ≤ py ∧ py < r.y + r.height

/-- C5: the claim asserts that `Region::intersection` is total and returns an
empty (zero width or zero height) region for disjoint inputs.  The code
subtracts `x1 - x0` in `i32`; for the disjoint regions
`(1000000000, 0, 1000000000, 5)` and `(-2147483648, 0, 5, 5)` this
subtraction underflows `i32` (`-3147483643`), wraps, and produces the
non-empty region `(1000000000, 0, 1147483653, 5)` in release mode (and an
overflow panic in debug mode), contradicting the claim. -/
theorem c5_intersection_overflow :
    (∀ px py : ℤ,
      ¬ ((Region.new 1000000000 0 1000000000 5).containsPt px py ∧
         (Region.new (-2147483648) 0 5 5).containsPt px py)) ∧
    Region.intersection (Region.new 1000000000 0 1000000000 5)
        (Region.new (-2147483648) 0 5 5) =
      Region.new 1000000000 0 1147483653 5 ∧
    ¬ ((Region.new 1000000000 0 1147483653 5).width = 0 ∨
       (Region.new 1000000000 0 1147483653 5).height = 0) := by
  refine ⟨?_, by decide, by decide⟩
  intro px py h
  simp only [Region.containsPt, Region.new, u32ToI32OrZero, i32Max] at h
  norm_num at h
  omega

/-- C6 counterexample: for `r = Region::new(-1, 0, 5, 5)` the intersection
with the full plane clamps the negative origin to zero, so
`r.intersection(full_plane) = (0, 0, 4, 5) ≠ r`. -/
theorem c6_counterexample :
    Region.intersection (Region.new (-1) 0 5 5) Region.fullPlane ≠
      Region.new (-1) 0 5 5 := by decide

/-- C6 (amended): for every region `r` with well-formed stored extent
(`0 ≤ width, height ≤ i32::MAX`), non-negative origin, and whose right/bottom
edges do not exceed `i32::MAX`, intersecting with the full plane is the
identity. -/
theorem c6_intersection_fullPlane (r : Region)
    (hx : 0 ≤ r.x) (hy : 0 ≤ r.y)
    (hw0 : 0 ≤ r.width) (hh0 : 0 ≤ r.height)
    (hxw : r.x + r.width ≤ i32Max) (hyh : r.y + r.height ≤ i32Max) :
    Region.intersection r Region.fullPlane = r := by
  obtain ⟨x, y, w, h⟩ := r
  simp only [Region.intersection, Region.fullPlane, Region.new, Region.right,
    Region.bottom, satAdd, u32ToI32OrZero, wrapToU32, i32Max, i32Min] at *
  rw [Region.mk.injEq]
  norm_num
  refine ⟨by omega, by omega, ?_, ?_⟩ <;> · split <;> omega

/-- C6 witness: the amended identity at the concrete region `(3, 4, 10, 20)`. -/
theorem c6_intersection_fullPlane_witness :
    Region.intersection (Region.new 3 4 10 20) Region.fullPlane =
      Region.new 3 4 10 20 :=
  c6_intersection_fullPlane (Region.new 3 4 10 20) (by decide) (by decide)
    (by decide) (by decide) (by decide) (by decide)

/-- `Raster` from raster.rs: a row-major buffer of `width * height` pixels.
Width and height are `u32` values that construction checks against
`i32::MAX`. -/
structure Raster (P : Type) where
  width : ℕ
  height : ℕ
  pixels : List P
deriving DecidableEq

/-- Well-formed raster: the buffer holds exactly `width * height` pixels. -/
def Raster.wf (r : Raster P) : Prop := r.pixels.length = r.width * r.height

/-- Fuel-driven core of `slice::chunks_exact`: splits `l` into consecutive
chunks of exactly `w` elements, dropping a short remainder.  The fuel bounds
recursion depth; `l.length` is always enough. -/
def chunksGo (fuel w : ℕ) (l : List α) : List (List α) :=
  match fuel with
  | 0 => []
  | Nat.succ f =>
    if 0 < w ∧ w ≤ l.length then l.take w :: chunksGo f w (l.drop w) else []

/-- `slice::chunks_exact(w)` for `w > 0` (Rust panics for `w = 0`;
callers guard that case). -/
def chunksExact (w : ℕ) (l : List α) : List (List α) := chunksGo l.length w l

theorem chunksGo_spec (w : ℕ) (hw : 0 < w) :
    ∀ (fuel : ℕ) (l : List α), l.length ≤ fuel →
      (chunksGo fuel w l).length = l.length / w ∧
      ∀ r ∈ chunksGo fuel w l, r.length = w := by
  intro fuel
  induction fuel with
  | zero =>
    intro l hl
    have : l = [] := List.length_eq_zero.mp (Nat.le_zero.mp hl)
    subst this
    simp [chunksGo]
  | succ f ih =>
    intro l hl
    by_cases hwl : w ≤ l.length
    · have hrec := ih (l.drop w) (by simp; omega)
      have hdiv : l.length / w = (l.length - w) / w + 1 :=
        Nat.div_eq_sub_div hw hwl
      constructor
      · simp only [chunksGo, if_pos (And.intro hw hwl), List.length_cons]
        rw [hrec.1]
        simp [hdiv]
      · intro r hr
        simp only [chunksGo, if_pos (And.intro hw hwl), List.mem_cons] at hr
        rcases hr with rfl | hr
        · simp [Nat.min_eq_left hwl]
        · exact hrec.2 r hr
    · have hdiv : l.length / w = 0 := Nat.div_eq_of_lt (by omega)
      constructor
      · simp only [chunksGo]
        rw [if_neg (by omega), hdiv]
        rfl
      · intro r hr
        simp only [chunksGo] at hr
        rw [if_neg (by omega)] at hr
        simp at hr

theorem chunksExact_spec (w : ℕ) (hw : 0 < w) (l : List α) :
    (chunksExact w l).length = l.length / w ∧
    ∀ r ∈ chunksExact w l, r.length = w :=
  chunksGo_spec w hw l.length l le_rfl

/-- `Raster::with_color` (and `with_clear`, which calls it with the default
pixel): fails (panics) when a dimension exceeds `i32::MAX` or the `i32`
product `width * height` overflows; otherwise fills `width * height` cells. -/
def withColor (w h : ℕ) (clr : P) : Option (Raster P) :=
  if w ≤ 2147483647 ∧ h ≤ 2147483647 ∧ w * h ≤ 2147483647 then
    some ⟨w, h, List.replicate (w * h) clr⟩
  else none

/-- `Raster::rows` / `Raster::rows_mut` (both build the same chunk iterator):
`chunks_exact` rejects a chunk size of zero, so a zero-width raster makes the
call panic (`none`); otherwise the rows are the width-sized chunks of the
buffer. -/
def rasterRows (r : Raster P) : Option (List (List P)) :=
  if r.width = 0 then none else some (chunksExact r.width r.pixels)

/-- C10: a zero-width raster is constructible with `with_color`/`with_clear`,
but `rows()`/`rows_mut()` on it panic because the chunk size equals the width
and `chunks_exact` rejects zero; for positive width, `rows()` yields exactly
`height` rows of exactly `width` pixels each. -/
theorem c10_zero_width_rows (h : ℕ) (clr : P) (hh : h ≤ 2147483647)
    (r : Raster P) (hwpos : 0 < r.width) (hwf : r.wf) :
    (∃ r0 : Raster P, withColor 0 h clr = some r0 ∧ rasterRows r0 = none) ∧
    ∃ rs, rasterRows r = some rs ∧ rs.length = r.height ∧
      ∀ row ∈ rs, row.length = r.width := by
  constructor
  · exact ⟨⟨0, h, []⟩, by simp [withColor, hh], by simp [rasterRows]⟩
  · refine ⟨chunksExact r.width r.pixels, ?_, ?_, ?_⟩
    · simp [rasterRows, Nat.pos_iff_ne_zero.mp hwpos]
    · rw [(chunksExact_spec r.width hwpos r.pixels).1, hwf,
        Nat.mul_div_cancel_left _ hwpos]
    · exact (chunksExact_spec r.width hwpos r.pixels).2

/-- C10 witness: the theorem at `h = 2`, a one-pixel raster of naturals. -/
theorem c10_zero_width_rows_witness :
    (∃ r0 : Raster ℕ, withColor 0 2 (7 : ℕ) = some r0 ∧ rasterRows r0 = none) ∧
    ∃ rs, rasterRows (⟨1, 1, [5]⟩ : Raster ℕ) = some rs ∧
      rs.length = (⟨1, 1, [5]⟩ : Raster ℕ).height ∧
      ∀ row ∈ rs, row.length = (⟨1, 1, [5]⟩ : Raster ℕ).width :=
  c10_zero_width_rows 2 7 (by decide) ⟨1, 1, [5]⟩ (by decide) rfl

/-- `Raster::intersection` from raster.rs: clip a region to the raster's own
bounds.  Unlike `Region::intersection`, the differences are clamped with
`.max(0)` before the cast and cannot overflow `i32`, so plain integer
arithmetic is faithful here. -/
def Raster.intersection (r : Raster P) (reg : Region) : Region :=
  let x0 := max reg.x 0
  let x1 := min reg.right (r.width : ℤ)
  let w := (max (x1 - x0) 0).toNat
  let y0 := max reg.y 0
  let y1 := min reg.bottom (r.height : ℤ)
  let h := (max (y1 - y0) 0).toNat
  Region.new x0 y0 w h

/-- Modelled from the spec: the `Source` Porter-Duff operator applied to a
destination scanline and a single color ("Source replaces destination
outright", ops.rs is not among the sources). -/
def sourceCompositeColor (drow : List P) (clr : P) : List P :=
  drow.map (fun _ => clr)

/-- `Raster::composite_color` from raster.rs, with the `Source` operator:
clip the region to the raster, then for each of `height` scanlines starting
at row `y`, apply the operator to the pixels `x .. x+width` of that row.
The slice `&mut drow[x0..x1]` stays within the row because the clipped
region lies inside the raster, so the operation is total. -/
def compositeColor (r : Raster P) (reg : Region) (clr : P) : Raster P :=
  let reg2 := r.intersection reg
  let w := reg2.width.toNat
  let h := reg2.height.toNat
  if 0 < w ∧ 0 < h then
    let rows := chunksExact r.width r.pixels
    let x0 := reg2.x.toNat
    let y0 := reg2.y.toNat
    let newRows :=
      rows.take y0 ++
      ((rows.drop y0).take h).map (fun row =>
        row.take x0 ++ sourceCompositeColor ((row.drop x0).take w) clr ++
          row.drop (x0 + w)) ++
      rows.drop (y0 + h)
    ⟨r.width, r.height, newRows.flatten⟩
  else r

/-- `Raster::pixel` from raster.rs: `pixels[width * y + x]`, as an `Option`
to keep indexing total. -/
def pixelAt (r : Raster P) (x y : ℕ) : Option P :=
  r.pixels.get? (r.width * y + x)

/-- C4: on every 3×3 raster, `composite_color((2, -1, 3, 4), clr, Source)`
sets exactly the three pixels of column `x = 2` to `clr` and leaves every
other pixel unchanged. -/
theorem c4_composite_color_clips (p : List P) (hp : p.length = 9) (clr : P)
    (x y : ℕ) (hx : x < 3) (hy : y < 3) :
    pixelAt (compositeColor ⟨3, 3, p⟩ (Region.new 2 (-1) 3 4) clr) x y =
      if x = 2 then some clr else pixelAt ⟨3, 3, p⟩ x y := by
  rcases p with _ | ⟨a0, _ | ⟨a1, _ | ⟨a2, _ | ⟨a3, _ | ⟨a4, _ | ⟨a5, _ |
    ⟨a6, _ | ⟨a7, _ | ⟨a8, t⟩⟩⟩⟩⟩⟩⟩⟩⟩ <;> simp only [List.length] at hp <;>
    try omega
  obtain rfl : t = [] := by
    have := List.length_eq_zero.mp (by omega : t.length = 0)
    exact this
  interval_cases x <;> interval_cases y <;> rfl

/-- C4 witness: the theorem at a concrete 3×3 raster of naturals,
`clr = 99`, pixel `(1, 1)`. -/
theorem c4_composite_color_clips_witness :
    pixelAt (compositeColor ⟨3, 3, [0, 1, 2, 3, 4, 5, 6, 7, 8]⟩
        (Region.new 2 (-1) 3 4) (99 : ℕ)) 1 1 =
      if 1 = 2 then some (99 : ℕ)
      else pixelAt (⟨3, 3, [0, 1, 2, 3, 4, 5, 6, 7, 8]⟩ : Raster ℕ) 1 1 :=
  c4_composite_color_clips [0, 1, 2, 3, 4, 5, 6, 7, 8] rfl 99 1 1
    (by decide) (by decide)

/-- Modelled from the spec: the `Source` operator on a pair of scanline
slices ("Source replaces destination outright"); the Rust loop zips the two
slices, so it stops at the shorter one. -/
def overwriteSeg (d s : List P) : List P := s.take d.length ++ d.drop s.length

/-- One scanline step of `composite_raster`: `&mut drow[x0..x0+w]` panics
(`none`) when the range leaves the row, `&srow[sx..]` panics when `sx`
exceeds the source row length; otherwise the destination segment is blended
(here: overwritten) with the source suffix. -/
def blendRowSource (d s : List P) (x0 w sx : ℕ) : Option (List P) :=
  if x0 + w ≤ d.length ∧ sx ≤ s.length then
    some (d.take x0 ++ overwriteSeg ((d.drop x0).take w) (s.drop sx) ++
      d.drop (x0 + w))
  else none

/-- The row loop of `composite_raster`:
`drows.take(height).zip(srows)` pairs rows until `height`, the destination
rows, or the source rows run out; unpaired destination rows stay unchanged. -/
def goRows (x0 w sx : ℕ) : ℕ → List (List P) → List (List P) →
    Option (List (List P))
  | 0, ds, _ => some ds
  | _ + 1, [], _ => some []
  | _ + 1, d :: ds, [] => some (d :: ds)
  | Nat.succ h, d :: ds, s :: ss =>
    match blendRowSource d s x0 w sx, goRows x0 w sx h ds ss with
    | some d2, some rest => some (d2 :: rest)
    | _, _ => none

/-- `Raster::composite_raster` from raster.rs with the `Source` operator.
Both regions are clipped to their raster's bounds; the blended extent is the
minimum of the clipped extents; each clipped region is then shifted by the
other region's negative overhang (`tx`/`ty`/`fx`/`fy`), and rows are paired
and blended.  Row slicing can leave the raster after the shift, which is a
panic (`none`). -/
def compositeRaster (dst : Raster P) (toR : Region) (src : Raster P)
    (fromR : Region) : Option (Raster P) :=
  let tx := (min toR.x 0).natAbs
  let ty := (min toR.y 0).natAbs
  let fx := (min fromR.x 0).natAbs
  let fy := (min fromR.y 0).natAbs
  let to2 := dst.intersection toR
  let from2 := src.intersection fromR
  let w := min to2.width.toNat from2.width.toNat
  let h := min to2.height.toNat from2.height.toNat
  if 0 < w ∧ 0 < h then
    let to3x := (to2.x + fx).toNat
    let to3y := (to2.y + fy).toNat
    let fr3x := (from2.x + tx).toNat
    let fr3y := (from2.y + ty).toNat
    let srows := (chunksExact src.width src.pixels).drop fr3y
    let drows := chunksExact dst.width dst.pixels
    match goRows to3x w fr3x h (drows.drop to3y) srows with
    | none => none
    | some mid => some ⟨dst.width, dst.height, (drows.take to3y ++ mid).flatten⟩
  else some dst

/-- C3: the claim says excess source/destination area is silently ignored
without error or panic.  But for 3×3 rasters with `to = (1, 0, 3, 3)` and
`from = (-1, 0, 3, 3)`, the clipped destination region `(1, 0, 2, 3)` is
shifted right by the source's negative overhang (`fx = 1`), and the code
slices `drow[2..4]` on rows of width 3 — an out-of-bounds slice, i.e. a
panic (`none`). -/
theorem c3_composite_raster_panics :
    compositeRaster (⟨3, 3, List.replicate 9 (0 : ℕ)⟩ : Raster ℕ)
      (Region.new 1 0 3 3) ⟨3, 3, List.replicate 9 1⟩
      (Region.new (-1) 0 3 3) = none := by decide

/-- The `Hwb` color model from hwb.rs: hue, whiteness, blackness and an
alpha channel, generic over the channel type.  (For the `Opaque` alpha
channel the alpha field carries no data and `alpha()` returns `C::MAX`; the
`Translucent` case modelled here stores the channel value itself.) -/
structure Hwb (C : Type) where
  hue : C
  whiteness : C
  blackness : C
  alpha : C
deriving DecidableEq

/-- `Channels` from model.rs as used by hwb.rs: four channel values plus the
alpha index. -/
structure ChannelsM (C : Type) where
  c0 : C
  c1 : C
  c2 : C
  c3 : C
  alphaIdx : ℕ
deriving DecidableEq

/-- `Hwb::into_channels::<R>` for `R = Self` (the `TypeId` fast path):
the native layout `[whiteness, blackness, alpha, hue]` with alpha index 2. -/
def Hwb.intoChannelsSame (p : Hwb C) : ChannelsM C :=
  ⟨p.whiteness, p.blackness, p.alpha, p.hue, 2⟩

/-- `Hwb::from_channels::<R>` for `R = Self` (the `TypeId` fast path):
rebuild from the native layout. -/
def Hwb.fromChannelsSame (ch : ChannelsM C) : Hwb C :=
  ⟨ch.c3, ch.c0, ch.c1, ch.c2⟩

/-- The per-channel bit-depth conversion step of `Pixel::convert`
(`D::Chan::from` on each of the four channels). -/
def ChannelsM.mapChan (f : C → C') (ch : ChannelsM C) : ChannelsM C' :=
  ⟨f ch.c0, f ch.c1, f ch.c2, f ch.c3, ch.alphaIdx⟩

/-- `Pixel::convert::<D>` for `D = Self` on an `Hwb` pixel: the same-type
fast path of `into_channels`, the bit-depth conversion (`From<Chan> for
Chan` is the identity), the alpha/gamma block skipped because both
`TypeId`s agree, and the same-type fast path of `from_channels`. -/
def Hwb.convertSelf (p : Hwb C) : Hwb C :=
  Hwb.fromChannelsSame ((Hwb.intoChannelsSame p).mapChan id)

/-- C1: converting an `Hwb` pixel to its own format is the identity, for
every channel type. -/
theorem c1_convert_self_identity (p : Hwb C) : p.convertSelf = p := by
  cases p
  rfl

/-- Modelled from the spec: an 8-bit channel as a fraction of its maximum
(`Into<f32> for Ch8`; chan.rs is not among the sources, float arithmetic is
modelled by exact rationals). -/
def intoQ (c : ℕ) : ℚ := (c : ℚ) / 255

/-- Modelled from the spec: `f32::round`, which rounds half away from zero. -/
def roundHA (q : ℚ) : ℤ := if q < 0 then -⌊-q + 1 / 2⌋ else ⌊q + 1 / 2⌋

/-- Modelled from the spec: `From<f32> for Ch8` — clamp to `[0, 1]`, scale to
the integer range and round (chan.rs is not among the sources). -/
def fromQ (q : ℚ) : ℕ := (roundHA (min (max q 0) 1 * 255)).toNat

/-- Modelled from the spec: saturating 8-bit channel addition. -/
def add8 (a b : ℕ) : ℕ := min (a + b) 255

/-- Modelled from the spec: saturating 8-bit channel subtraction
(truncated natural subtraction). -/
def sub8 (a b : ℕ) : ℕ := a - b

/-- Modelled from the spec: 8-bit channel multiplication, exact product of
the fractions rounded back to 8 bits. -/
def mul8 (a b : ℕ) : ℕ := fromQ (intoQ a * intoQ b)

/-- Modelled from the spec: 8-bit channel division (callers guard the zero
divisor), exact quotient of the fractions rounded back to 8 bits. -/
def div8 (a b : ℕ) : ℕ := if b = 0 then 0 else fromQ (intoQ a / intoQ b)

/-- `Hwb::whiteness_blackness` from hwb.rs at 8 bits: detect
`whiteness + blackness` exceeding the maximum via the saturating-add trick
`w + b - b < w`, and if so rescale both by `1 / (w + b)` (in channel
fractions) so the pair keeps its ratio. -/
def whitenessBlackness8 (w b : ℕ) : ℕ × ℕ :=
  if sub8 (add8 w b) b < w then
    let wq := intoQ w
    let bq := intoQ b
    let ratio := 1 / (wq + bq)
    (fromQ (wq * ratio), fromQ (bq * ratio))
  else (w, b)

/-- Modelled from the spec: `Hexcone::from_hue_prime(hp).rgb(chroma)` from
hue.rs — decompose the hue fraction (already scaled to `0..6`) into one of
six sectors and produce the unscaled rgb triple by the standard
chroma/hexcone formula. -/
def hexconeRgb (hp : ℚ) (chroma : ℕ) : ℕ × ℕ × ℕ :=
  let sector : ℕ := ⌊hp⌋.toNat % 6
  let hpm2 : ℚ := hp - 2 * ⌊hp / 2⌋
  let x : ℕ := fromQ (intoQ chroma * (1 - |hpm2 - 1|))
  match sector with
  | 0 => (chroma, x, 0)
  | 1 => (x, chroma, 0)
  | 2 => (0, chroma, x)
  | 3 => (0, x, chroma)
  | 4 => (x, 0, chroma)
  | _ => (chroma, 0, x)

/-- `Hwb::into_rgba` from hwb.rs at 8 bits: clamp whiteness/blackness,
`value = MAX - blackness`, `chroma = value - whiteness`, hexcone on
`hue * 6`, then add the achromatic offset `value - chroma` to every
channel. -/
def hwbIntoRgba8 (p : Hwb ℕ) : ℕ × ℕ × ℕ × ℕ :=
  let wb := whitenessBlackness8 p.whiteness p.blackness
  let v := sub8 255 wb.2
  let chroma := sub8 v wb.1
  let hp := intoQ p.hue * 6
  let rgb := hexconeRgb hp chroma
  let m := sub8 v chroma
  (add8 rgb.1 m, add8 rgb.2.1 m, add8 rgb.2.2 m, p.alpha)

/-- Modelled from the spec: `rgb_to_hue_chroma_value` from hue.rs — the
standard hue/chroma/value extraction from max/min of the three channels,
with the hue returned as an 8-bit channel. -/
def rgbToHueChromaValue8 (r g b : ℕ) : ℕ × ℕ × ℕ :=
  let mx := max r (max g b)
  let mn := min r (min g b)
  let chroma := mx - mn
  let hp : ℚ :=
    if chroma = 0 then 0
    else if mx = r then
      let q := ((g : ℚ) - b) / chroma
      q - 6 * ⌊q / 6⌋
    else if mx = g then ((b : ℚ) - r) / chroma + 2
    else ((r : ℚ) - g) / chroma + 4
  (fromQ (hp / 6), chroma, mx)

/-- `Hwb::from_rgba` from hwb.rs at 8 bits: extract hue/chroma/value,
`saturation = chroma / value` (zero when value is at the minimum),
`whiteness = (MAX - saturation) * value`, `blackness = MAX - value`. -/
def hwbFromRgba8 (rgba : ℕ × ℕ × ℕ × ℕ) : Hwb ℕ :=
  let hcv := rgbToHueChromaValue8 rgba.1 rgba.2.1 rgba.2.2.1
  let hue := hcv.1
  let chroma := hcv.2.1
  let val := hcv.2.2
  let satv := if 0 < val then div8 chroma val else 0
  let whiteness := mul8 (sub8 255 satv) val
  let blackness := sub8 255 val
  ⟨hue, whiteness, blackness, rgba.2.2.2⟩

/-- C7: the concrete 8-bit hue-model conversions.
`Hwb(0,128,128)` → rgb `(127,127,127)`; `Hwb(0,0,0)` → rgb `(255,0,0)`;
rgb `(255,0,0)` → `Hwb(0,0,0)` (alpha is the opaque maximum). -/
theorem c7_hwb_rgb_concrete :
    hwbIntoRgba8 ⟨0, 128, 128, 255⟩ = (127, 127, 127, 255) ∧
    hwbIntoRgba8 ⟨0, 0, 0, 255⟩ = (255, 0, 0, 255) ∧
    hwbFromRgba8 (255, 0, 0, 255) = ⟨0, 0, 0, 255⟩ := by
  refine ⟨?_, ?_, ?_⟩
  · simp only [hwbIntoRgba8, whitenessBlackness8, hexconeRgb, add8, sub8,
      intoQ, fromQ, roundHA, mul8, div8]
    norm_num
    decide
  · simp only [hwbIntoRgba8, whitenessBlackness8, hexconeRgb, add8, sub8,
      intoQ, fromQ, roundHA, mul8, div8]
    norm_num
  · simp only [hwbFromRgba8, rgbToHueChromaValue8, add8, sub8, intoQ, fromQ,
      roundHA, mul8, div8]
    norm_num

/-- C8 counterexample: the claim says the clamp keeps
`whiteness + blackness` at most the channel maximum, but at
`(w, b) = (255, 255)` the proportional rescale produces `127.5` for both
components and round-half-away-from-zero yields `(128, 128)`, whose sum
`256` exceeds the maximum `255`.  (The repository's own test
`Hwb8::new(0, 255, 255) -> Rgb8(127,127,127)` pins down exactly this
rounding behaviour.) -/
theorem c8_counterexample :
    whitenessBlackness8 255 255 = (128, 128) ∧
    255 < (whitenessBlackness8 255 255).1 + (whitenessBlackness8 255 255).2 := by
  have h : whitenessBlackness8 255 255 = (128, 128) := by
    simp only [whitenessBlackness8, add8, sub8, intoQ, fromQ, roundHA]
    norm_num
    decide
  exact ⟨h, by rw [h]; decide⟩

/-- C8 (amended): `whiteness_blackness` leaves the pair unchanged when
`w + b ≤ MAX`; when the sum exceeds `MAX` it rescales both components
proportionally — each becomes the rounding of `MAX * component / (w + b)`,
preserving their ratio up to rounding — and the clamped sum can exceed `MAX`
by at most one rounding unit (`≤ 256`). -/
theorem c8_whiteness_blackness_clamp (w b : ℕ) (hw : w ≤ 255) (hb : b ≤ 255) :
    (w + b ≤ 255 → whitenessBlackness8 w b = (w, b)) ∧
    (255 < w + b →
      whitenessBlackness8 w b =
        ((roundHA (255 * w / ((w : ℚ) + b))).toNat,
         (roundHA (255 * b / ((w : ℚ) + b))).toNat) ∧
      (whitenessBlackness8 w b).1 + (whitenessBlackness8 w b).2 ≤ 256) := by
  have hcond : sub8 (add8 w b) b < w ↔ 255 < w + b := by
    simp only [sub8, add8]
    omega
  refine ⟨fun hle => ?_, fun hgt => ?_⟩
  · simp only [whitenessBlackness8]
    rw [if_neg (by rw [hcond]; omega)]
  · have hpos : (0 : ℚ) < (w : ℚ) + b := by
      have : 0 < w + b := by omega
      exact_mod_cast this
    have hne : ((w : ℚ) + b) ≠ 0 := ne_of_gt hpos
    have hfrom : ∀ a : ℕ, a ≤ w + b →
        fromQ (intoQ a * (1 / (intoQ w + intoQ b))) =
          (roundHA (255 * a / ((w : ℚ) + b))).toNat := by
      intro a ha
      have harg : intoQ a * (1 / (intoQ w + intoQ b)) = (a : ℚ) / ((w : ℚ) + b) := by
        simp only [intoQ]
        field_simp
      have h0 : (0 : ℚ) ≤ (a : ℚ) / ((w : ℚ) + b) := by positivity
      have h1 : (a : ℚ) / ((w : ℚ) + b) ≤ 1 := by
        rw [div_le_one hpos]
        exact_mod_cast ha
      simp only [fromQ, harg, max_eq_left h0, min_eq_left h1]
      rw [div_mul_eq_mul_div, mul_comm (a : ℚ) 255]
    have heq : whitenessBlackness8 w b =
        ((roundHA (255 * w / ((w : ℚ) + b))).toNat,
         (roundHA (255 * b / ((w : ℚ) + b))).toNat) := by
      simp only [whitenessBlackness8]
      rw [if_pos (hcond.mpr hgt)]
      exact Prod.ext (hfrom w (by omega)) (hfrom b (by omega))
    refine ⟨heq, ?_⟩
    rw [heq]
    have hxnn : (0 : ℚ) ≤ 255 * w / ((w : ℚ) + b) := by positivity
    have hynn : (0 : ℚ) ≤ 255 * b / ((w : ℚ) + b) := by positivity
    have hrx : roundHA (255 * w / ((w : ℚ) + b)) =
        ⌊255 * w / ((w : ℚ) + b) + 1 / 2⌋ := by
      simp only [roundHA]
      rw [if_neg (by push_neg; linarith)]
    have hry : roundHA (255 * b / ((w : ℚ) + b)) =
        ⌊255 * b / ((w : ℚ) + b) + 1 / 2⌋ := by
      simp only [roundHA]
      rw [if_neg (by push_neg; linarith)]
    have hxy : 255 * w / ((w : ℚ) + b) + 255 * b / ((w : ℚ) + b) = 255 := by
      field_simp
      ring
    have hfx := Int.floor_le (255 * w / ((w : ℚ) + b) + 1 / 2)
    have hfy := Int.floor_le (255 * b / ((w : ℚ) + b) + 1 / 2)
    have hsum : (⌊255 * w / ((w : ℚ) + b) + 1 / 2⌋ +
        ⌊255 * b / ((w : ℚ) + b) + 1 / 2⌋ : ℚ) ≤ 256 := by
      linarith
    have hsumz : ⌊255 * w / ((w : ℚ) + b) + 1 / 2⌋ +
        ⌊255 * b / ((w : ℚ) + b) + 1 / 2⌋ ≤ 256 := by exact_mod_cast hsum
    have hx0 : 0 ≤ ⌊255 * w / ((w : ℚ) + b) + 1 / 2⌋ :=
      Int.floor_nonneg.mpr (by linarith)
    have hy0 : 0 ≤ ⌊255 * b / ((w : ℚ) + b) + 1 / 2⌋ :=
      Int.floor_nonneg.mpr (by linarith)
    rw [hrx, hry]
    omega

/-- C8 witness: the amended statement at `(w, b) = (200, 100)`, where the
clamp triggers and rescales to `(170, 85)`. -/
theorem c8_whiteness_blackness_clamp_witness :
    (200 + 100 ≤ 255 → whitenessBlackness8 200 100 = (200, 100)) ∧
    (255 < 200 + 100 →
      whitenessBlackness8 200 100 =
        ((roundHA (255 * 200 / ((200 : ℚ) + 100))).toNat,
         (roundHA (255 * 100 / ((200 : ℚ) + 100))).toNat) ∧
      (whitenessBlackness8 200 100).1 + (whitenessBlackness8 200 100).2 ≤ 256) :=
  c8_whiteness_blackness_clamp 200 100 (by decide) (by decide)

/-- C9 counterexample: for the pixel `Hwb8(hue=0, whiteness=128,
blackness=128)` (opaque alpha), the same-type fast path (native channel
layout) returns the pixel unchanged, while the general path through
`into_rgba`/`from_rgba` returns `Hwb8(0, 127, 128)` — the two applicable
paths are not bit-for-bit identical. -/
theorem c9_counterexample :
    hwbFromRgba8 (hwbIntoRgba8 ⟨0, 128, 128, 255⟩) = ⟨0, 127, 128, 255⟩ ∧
    Hwb.fromChannelsSame (Hwb.intoChannelsSame (⟨0, 128, 128, 255⟩ : Hwb ℕ)) =
      ⟨0, 128, 128, 255⟩ ∧
    hwbFromRgba8 (hwbIntoRgba8 ⟨0, 128, 128, 255⟩) ≠
      Hwb.fromChannelsSame (Hwb.intoChannelsSame (⟨0, 128, 128, 255⟩ : Hwb ℕ)) := by
  have h1 : hwbIntoRgba8 ⟨0, 128, 128, 255⟩ = (127, 127, 127, 255) := by
    simp only [hwbIntoRgba8, whitenessBlackness8, hexconeRgb, add8, sub8,
      intoQ, fromQ, roundHA, mul8, div8]
    norm_num
    decide
  have h2 : hwbFromRgba8 (127, 127, 127, 255) = ⟨0, 127, 128, 255⟩ := by
    simp only [hwbFromRgba8, rgbToHueChromaValue8, add8, sub8, intoQ, fromQ,
      roundHA, mul8, div8]
    norm_num
    decide
  refine ⟨by rw [h1, h2], rfl, ?_⟩
  rw [h1, h2]
  decide

/-- C9 (amended): whenever both paths are applicable the fast path itself is
exact — rebuilding an `Hwb` pixel from its native channel layout returns it
bit-for-bit — but the general path through canonical RGBA does not in
general agree with it (see the counterexample), so the claimed bit-for-bit
agreement of the two paths does not hold. -/
theorem c9_fast_path_exact (p : Hwb C) :
    Hwb.fromChannelsSame (Hwb.intoChannelsSame p) = p := by
  cases p
  rfl

/-- `convert_alpha_gamma` from pixel.rs, parameterized by the strategy
functions of the two pixel formats: convert every color channel to linear
gamma with the source's strategy, then — only when the alpha modes differ
(`aEq = false`) — decode from the source's alpha convention and encode into
the destination's, then convert every channel to the destination's gamma. -/
def convertAlphaGamma (aEq : Bool) (toLin fromLin : C → C)
    (decodeA encodeA : C → C → C) (alpha : C) (channels : List C) : List C :=
  let cs := channels.map toLin
  let cs2 := if aEq then cs else cs.map fun c => encodeA (decodeA c alpha) alpha
  cs2.map fromLin

/-- The channel pipeline of `Pixel::convert` from pixel.rs: convert all four
channels to the destination bit depth (`widthConv`), and when the alpha mode
or the gamma mode differs, split the channel array at the alpha index and run
`convert_alpha_gamma` on the color channels with the pixel's alpha value. -/
def convertChans (aEq gEq : Bool) (widthConv : C → C')
    (toLin fromLin : C' → C') (decodeA encodeA : C' → C' → C')
    (aIdx : ℕ) (chan : List C) (hIdx : aIdx < chan.length) : List C' :=
  let chan2 := chan.map widthConv
  if aEq && gEq then chan2
  else
    let alpha := (chan.map widthConv).get ⟨aIdx, by simpa using hIdx⟩
    convertAlphaGamma aEq toLin fromLin decodeA encodeA alpha
      (chan2.take aIdx) ++ chan2.drop aIdx

/-- The order of operations as the claim states it: first conversion to the
destination channel width; then, per color channel, conversion to linear
gamma by the source's gamma strategy, then (when the alpha modes differ)
decode from the source's alpha convention followed by encode into the
destination's — both in linear gamma space — then conversion from linear to
the destination's gamma encoding; the gamma and alpha steps are skipped when
the modes of source and destination already match. -/
def convertChansSpec (aEq gEq : Bool) (widthConv : C → C')
    (toLin fromLin : C' → C') (decodeA encodeA : C' → C' → C')
    (aIdx : ℕ) (chan : List C) (hIdx : aIdx < chan.length) : List C' :=
  let chan2 := chan.map widthConv
  if aEq && gEq then chan2
  else
    let alpha := (chan.map widthConv).get ⟨aIdx, by simpa using hIdx⟩
    (chan2.take aIdx).map (fun c =>
      fromLin (if aEq then toLin c
               else encodeA (decodeA (toLin c) alpha) alpha)) ++
    chan2.drop aIdx

/-- C2: the channel pipeline of `Pixel::convert` applies, in this exact
order, the bit-depth conversion, the source-gamma linearization, the alpha
decode/encode pair (when alpha modes differ) in linear gamma space, and the
destination-gamma encoding, skipping the whole alpha/gamma block when both
modes already match — i.e. the code agrees with the claimed order of
operations for every choice of strategies and channels. -/
theorem c2_convert_order (aEq gEq : Bool) (widthConv : C → C')
    (toLin fromLin : C' → C') (decodeA encodeA : C' → C' → C')
    (aIdx : ℕ) (chan : List C) (hIdx : aIdx < chan.length) :
    convertChans aEq gEq widthConv toLin fromLin decodeA encodeA
        aIdx chan hIdx =
      convertChansSpec aEq gEq widthConv toLin fromLin decodeA encodeA
        aIdx chan hIdx := by
  simp only [convertChans, convertChansSpec, convertAlphaGamma]
  cases aEq <;> cases gEq <;> simp [List.map_map, Function.comp] <;> rfl

/-- C2 witness: the pipeline equality at a concrete channel list with
differing alpha modes and concrete strategy functions. -/
theorem c2_convert_order_witness :
    convertChans false true (fun n => n) (fun n => n + 1) (fun n => 2 * n)
        (fun c a => c + a) (fun c a => c * a) 2 [10, 20, 30, 40]
        (by decide) =
      convertChansSpec false true (fun n => n) (fun n => n + 1)
        (fun n => 2 * n) (fun c a => c + a) (fun c a => c * a) 2
        [10, 20, 30, 40] (by decide) :=
  c2_convert_order false true (fun n => n) (fun n => n + 1) (fun n => 2 * n)
    (fun c a => c + a) (fun c a => c * a) 2 [10, 20, 30, 40] (by decide)

end Pix
